import Mathlib

/-!
Verification development for the `tests-helper` repository.

The embedding below translates the allocation core of the repository into
Lean definitions:

* `internal/junit/types.go` : the `Test` record (name and execution time);
* `internal/worker/worker.go` : `Worker`, `Allocator`, `NewAllocator`,
  `Allocator.Distribute`, `Allocator.GetWorker`, `Allocator.GetStats`,
  together with the `Stats` and `Distribution` records;
* `internal/splitter/splitter.go` : `Splitter.ReadTests`,
  `Splitter.SortTests`, `Splitter.Split`;
* `internal/splitter/stats.go` : `PercentileCalculator.Calculate` and
  `interpolate`.

Go `float64` values are modelled as rationals (`Rat`): every operation the
core performs on times (addition, division, comparison) is exact on the
inputs appearing here, so `Rat` mirrors the arithmetic up to floating-point
rounding, which none of the verified statements depend on.  The constant
`math.MaxFloat64` is modelled by its exact value `2 ^ 1024 - 2 ^ 971`.
Go slices become `List`, `nil` pointer results become `Option`, the
`map[string]float64` of historical times becomes an association list whose
lookup returns the zero value `0` for absent keys (Go map semantics), and
a returned `error` becomes `Except String`.
-/

set_option maxRecDepth 20000
set_option allowUnsafeReducibility true
attribute [semireducible] Rat.add Rat.mul Rat.inv Rat.sub

/-- `internal/junit/types.go`: a single test with its execution time. -/
structure Test where
  Name : String
  Time : Rat
deriving DecidableEq

/-- `internal/worker/worker.go`: a worker with its assigned tests and
cumulative total time. -/
structure Worker where
  Tests : List Test
  Total : Rat
deriving DecidableEq

/-- `internal/worker/worker.go`: the allocator holding the worker slice. -/
structure Allocator where
  workers : List Worker
deriving DecidableEq

/-- `NewAllocator`: `make([]Worker, numWorkers)` yields `numWorkers`
zero-valued workers (empty test slice, total `0`). -/
def NewAllocator (numWorkers : Nat) : Allocator :=
  ⟨List.replicate numWorkers { Tests := [], Total := 0 }⟩

/-- The inner scan of `Distribute`: starting from state
`minIdx`/`minTotal` at position `i`, advance over the remaining workers
`ws`, replacing the candidate whenever a strictly smaller total is seen
(`a.workers[i].Total < a.workers[minIdx].Total`). -/
def findMinIdxGo : List Worker → Nat → Nat → Rat → Nat
  | [], _, minIdx, _ => minIdx
  | w :: ws, i, minIdx, minTotal =>
    if w.Total < minTotal then findMinIdxGo ws (i + 1) i w.Total
    else findMinIdxGo ws (i + 1) minIdx minTotal

/-- The index-selection loop of `Distribute`: `minIdx := 0`, then scan
indices `1 ..< len(workers)` with a strict `<` comparison. -/
def findMinIdx (ws : List Worker) : Nat :=
  match ws with
  | [] => 0
  | w :: rest => findMinIdxGo rest 1 0 w.Total

/-- One iteration of the `Distribute` loop body: append `t` to the worker
at `findMinIdx ws` and add `t.Time` to its total.  (With a nonempty worker
slice the index is always in range; the `none` branch is unreachable
then.) -/
def assign (ws : List Worker) (t : Test) : List Worker :=
  match ws[findMinIdx ws]? with
  | none => ws
  | some w =>
    ws.set (findMinIdx ws) { Tests := w.Tests ++ [t], Total := w.Total + t.Time }

/-- `Allocator.Distribute`: the greedy loop over the input tests. -/
def Allocator.Distribute (a : Allocator) (tests : List Test) : Allocator :=
  ⟨tests.foldl assign a.workers⟩

/-- `Allocator.GetWorker`: `nil` (here `none`) for an index outside
`[0, len(workers))`, otherwise the worker at that index. -/
def Allocator.GetWorker (a : Allocator) (index : Int) : Option Worker :=
  if index < 0 ∨ (a.workers.length : Int) ≤ index then none
  else a.workers[index.toNat]?

/-- `Allocator.GetWorkers`. -/
def Allocator.GetWorkers (a : Allocator) : List Worker :=
  a.workers

/-- `worker.Stats`: statistics for a single worker. -/
structure Stats where
  Index : Nat
  Total : Rat
  TestCount : Nat
  MinTime : Rat
  MaxTime : Rat
  TestTimes : List Rat
deriving DecidableEq

/-- `worker.Distribution`: statistics about the whole distribution. -/
structure Distribution where
  TotalTime : Rat
  AvgTime : Rat
  Workers : List Stats
deriving DecidableEq

/-- The exact value of `math.MaxFloat64`, that is `2 ^ 1024 - 2 ^ 971`,
written as a literal so that it evaluates without deep recursion;
`maxFloat64_eq` below checks the value. -/
def maxFloat64 : Rat := 179769313486231570814527423731704356798070567525844996598917476803157260780028538760589558632766878171540458953514382464234321326889464182768467546703537516986049910576551282076245490090389328944075868508455133942304583236903222948165808559332123348274797826204144723168738177180919299881250404026184124858368

/-- The min/max scan inside `GetStats`: `minTime := math.MaxFloat64`,
`maxTime := 0.0`, then one pass over the worker's tests updating both. -/
def scanTimes : List Test → Rat → Rat → Rat × Rat
  | [], minT, maxT => (minT, maxT)
  | t :: ts, minT, maxT =>
    scanTimes ts (if t.Time < minT then t.Time else minT)
      (if t.Time > maxT then t.Time else maxT)

/-- The per-worker body of the `GetStats` loop, including the
`len(w.Tests) == 0` fix-up that resets `minTime` to `0`. -/
def workerStats (i : Nat) (w : Worker) : Stats :=
  let p := scanTimes w.Tests maxFloat64 0
  { Index := i
    Total := w.Total
    TestCount := w.Tests.length
    MinTime := if w.Tests.length = 0 then 0 else p.1
    MaxTime := p.2
    TestTimes := w.Tests.map Test.Time }

/-- The `for i, w := range a.workers` enumeration of `GetStats`, building
the `workerStats` slice. -/
def statsList : Nat → List Worker → List Stats
  | _, [] => []
  | i, w :: ws => workerStats i w :: statsList (i + 1) ws

/-- `Allocator.GetStats`: total time accumulated over the workers, the
average over `len(a.workers)`, and the per-worker statistics slice. -/
def Allocator.GetStats (a : Allocator) : Distribution :=
  let totalTime := (a.workers.map Worker.Total).sum
  { TotalTime := totalTime
    AvgTime := totalTime / (a.workers.length : Rat)
    Workers := statsList 0 a.workers }

/-- `Allocator.GetStats` with the receiver state threaded explicitly:
the Go method reads `a.workers` but assigns only to local variables
(`totalTime`, `workerStats`, freshly `make`d slices), so the receiver
returned after the call is the one passed in, unchanged. -/
def Allocator.GetStatsS (a : Allocator) : Distribution × Allocator :=
  (a.GetStats, a)

/-- `DefaultTestTime` from `internal/splitter/splitter.go`. -/
def DefaultTestTime : Rat := 1

/-- Model of `strings.TrimSpace` applied to a line: drop leading and
trailing whitespace characters from the string contents. -/
def trimSpace (s : String) : String :=
  ⟨((s.data.dropWhile Char.isWhitespace).reverse.dropWhile
      Char.isWhitespace).reverse⟩

/-- Go map read `times[name]` on the historical-times map: the stored
value when the key is present, the zero value `0` otherwise. -/
def lookupTime (times : List (String × Rat)) (name : String) : Rat :=
  match times.find? (fun p => p.1 == name) with
  | some p => p.2
  | none => 0

/-- The per-line body of the `ReadTests` scan loop: trim the line, skip
it when blank, otherwise look up its historical time, substituting
`DefaultTestTime` when the looked-up value is `0`. -/
def readTestLine (times : List (String × Rat)) (line : String) : Option Test :=
  let name := trimSpace line
  if name = "" then none
  else
    let time := lookupTime times name
    let time := if time = 0 then DefaultTestTime else time
    some { Name := name, Time := time }

/-- `Splitter.ReadTests` on an in-memory input (the `bufio.Scanner` is
modelled as the list of its lines; reader failures have no counterpart on
an in-memory input, so the `scanner.Err()` branch does not arise): collect
the non-blank trimmed lines with their times, and fail with
`"no tests provided"` when none remain. -/
def ReadTests (lines : List String) (times : List (String × Rat)) :
    Except String (List Test) :=
  let tests := lines.filterMap (readTestLine times)
  if tests.length = 0 then Except.error "no tests provided"
  else Except.ok tests

/-- `Splitter.SortTests`: sort by descending execution time
(`tests[i].Time > tests[j].Time`; `sort.Slice` is a comparison sort, so
its outcome is characterised by being a permutation ordered by the
comparator). -/
def SortTests (tests : List Test) : List Test :=
  List.insertionSort (fun a b => b.Time ≤ a.Time) tests

/-- `Splitter.Split`: sort the caller's test slice in place, then create
an allocator and distribute.  The in-place mutation of the argument slice
is modelled by returning the sorted slice alongside the allocator. -/
def Split (tests : List Test) (numWorkers : Nat) : List Test × Allocator :=
  let sorted := SortTests tests
  (sorted, (NewAllocator numWorkers).Distribute sorted)

/-- The Go conversion `int(pos)` on a nonnegative-denominator rational:
truncation toward zero. -/
def goInt (q : Rat) : Int := q.num.tdiv (q.den : Int)

/-- `interpolate` from `internal/splitter/stats.go`.  (For `i` negative
the Go code would panic at `sorted[i]`; `Calculate` only reaches this
function, and the verified statements only cover ranks in `[0, 100]`,
where `i` is nonnegative and in range, making the `getD` defaults
unreachable.) -/
def interpolate (sorted : List Rat) (pos : Rat) : Rat :=
  let i := goInt pos
  if (sorted.length : Int) - 1 ≤ i then sorted.getD (sorted.length - 1) 0
  else
    let frac := pos - (i : Rat)
    sorted.getD i.toNat 0 * (1 - frac) + sorted.getD (i.toNat + 1) 0 * frac

/-- `PercentileCalculator.Calculate`: empty map for empty input, otherwise
sort ascending and interpolate at `pos = p / 100 * (len - 1)` for each
requested rank.  The Go `map[int]float64` result is modelled as the
association list of `(rank, value)` pairs (duplicate requested ranks map
to the same value, so association-list lookup agrees with the Go map). -/
def Calculate (times : List Rat) (percentiles : List Int) : List (Int × Rat) :=
  if times.length = 0 then []
  else
    let sorted := List.insertionSort (fun a b : Rat => a ≤ b) times
    percentiles.map fun p =>
      (p, interpolate sorted ((p : Rat) / 100 * ((sorted.length : Rat) - 1)))

/-! ### Spec-side definitions used to state the claims -/

/-- The zero `Worker` value, used as the default for `getD` indexing. -/
def dworker : Worker := { Tests := [], Total := 0 }

/-- The zero `Stats` value, used as the default for `getD` indexing. -/
def dstats : Stats :=
  { Index := 0, Total := 0, TestCount := 0, MinTime := 0, MaxTime := 0
    TestTimes := [] }

/-- The multiset of all tests assigned across the workers. -/
def testsOf (ws : List Worker) : Multiset Test :=
  (ws.map fun w => (w.Tests : Multiset Test)).sum

/-- The sum of the workers' cumulative totals. -/
def totalOf (ws : List Worker) : Rat :=
  (ws.map Worker.Total).sum

/-- The number of workers holding at least one test. -/
def nonemptyCount (ws : List Worker) : Nat :=
  (ws.map fun w => if w.Tests = [] then 0 else 1).sum

/-- The trimmed, non-blank identifiers of the input lines, in input
order: the identifiers `ReadTests` is specified to retain. -/
def keptNames (lines : List String) : List String :=
  (lines.map trimSpace).filter (fun s => s ≠ "")

/-- Modelled from the spec (sections 4.3 and the C3 claim): the percentile
value at integer rank `p`, by sorting the input ascending, taking
`position = (p / 100) * (count - 1)` and `i = floor(position)`, returning
the last (maximum) sorted element when `i ≥ count - 1` and otherwise the
linear blend of `sorted[i]` and `sorted[i + 1]` weighted by the fractional
part of `position`. -/
def percentileSpec (times : List Rat) (p : Int) : Rat :=
  let sorted := List.insertionSort (fun a b : Rat => a ≤ b) times
  let count := times.length
  let position := (p : Rat) / 100 * ((count : Rat) - 1)
  let i := ⌊position⌋
  if (count : Int) - 1 ≤ i then sorted.getD (count - 1) 0
  else
    sorted.getD i.toNat 0 * (1 - (position - (i : Rat))) +
      sorted.getD (i.toNat + 1) 0 * (position - (i : Rat))

/-- The descending-time comparator of `SortTests` is total. -/
instance : IsTotal Test (fun a b => b.Time ≤ a.Time) :=
  ⟨fun a b => le_total b.Time a.Time⟩

/-- The descending-time comparator of `SortTests` is transitive. -/
instance : IsTrans Test (fun a b => b.Time ≤ a.Time) :=
  ⟨fun _ _ _ h1 h2 => le_trans h2 h1⟩

/-! ### Helper lemmas -/

theorem maxFloat64_eq : maxFloat64 = ((2 ^ 1024 - 2 ^ 971 : Int) : Rat) := by
  norm_num [maxFloat64]

theorem getD_eq_get (ws : List Worker) (i : Nat) (h : i < ws.length) :
    ws.getD i dworker = ws.get ⟨i, h⟩ := by
  simp [List.getD_eq_getElem?_getD, List.getElem?_eq_getElem h]

theorem drop_cons_facts {W : List Worker} {i : Nat} {w : Worker}
    {rest : List Worker} (h : W.drop i = w :: rest) :
    i < W.length ∧ W.getD i dworker = w ∧ W.drop (i + 1) = rest := by
  have hi : i < W.length := by
    by_contra hle
    push_neg at hle
    rw [List.drop_eq_nil_of_le hle] at h
    exact List.noConfusion h
  have h2 := List.getElem_cons_drop W i hi
  rw [h] at h2
  have h3 := List.cons.inj h2
  exact ⟨hi, by rw [getD_eq_get W i hi]; simpa using h3.1, h3.2⟩

theorem findMinIdxGo_spec (W : List Worker) :
    ∀ (tail : List Worker) (i minIdx : Nat),
      W.drop i = tail → minIdx < W.length →
      (∀ j, j < i →
        (W.getD minIdx dworker).Total ≤ (W.getD j dworker).Total) →
      (∀ j, j < minIdx →
        (W.getD minIdx dworker).Total < (W.getD j dworker).Total) →
      findMinIdxGo tail i minIdx (W.getD minIdx dworker).Total < W.length ∧
      (∀ j, j < W.length →
        (W.getD (findMinIdxGo tail i minIdx (W.getD minIdx dworker).Total)
            dworker).Total ≤ (W.getD j dworker).Total) ∧
      (∀ j, j < findMinIdxGo tail i minIdx (W.getD minIdx dworker).Total →
        (W.getD (findMinIdxGo tail i minIdx (W.getD minIdx dworker).Total)
            dworker).Total < (W.getD j dworker).Total)
  | [], i, minIdx, hdrop, hlt, hpre, hstrict => by
    have hlen : W.length ≤ i := by
      by_contra hc
      push_neg at hc
      have := List.getElem_cons_drop W i hc
      rw [hdrop] at this
      exact List.noConfusion this
    refine ⟨hlt, ?_, ?_⟩
    · intro j hj
      exact hpre j (lt_of_lt_of_le hj hlen)
    · intro j hj
      exact hstrict j hj
  | w :: rest, i, minIdx, hdrop, hlt, hpre, hstrict => by
    obtain ⟨hi, hWi, hdrop1⟩ := drop_cons_facts hdrop
    unfold findMinIdxGo
    by_cases hcmp : w.Total < (W.getD minIdx dworker).Total
    · rw [if_pos hcmp]
      have hw : w.Total = (W.getD i dworker).Total := by rw [hWi]
      rw [hw]
      exact findMinIdxGo_spec W rest (i + 1) i hdrop1 hi
        (fun j hj => by
          rcases Nat.lt_succ_iff_lt_or_eq.mp hj with hj1 | hj1
          · exact le_of_lt (lt_of_lt_of_le (hw ▸ hcmp) (hpre j hj1))
          · subst hj1; exact le_refl _)
        (fun j hj => lt_of_lt_of_le (hw ▸ hcmp) (hpre j hj))
    · rw [if_neg hcmp]
      push_neg at hcmp
      exact findMinIdxGo_spec W rest (i + 1) minIdx hdrop1 hlt
        (fun j hj => by
          rcases Nat.lt_succ_iff_lt_or_eq.mp hj with hj1 | hj1
          · exact hpre j hj1
          · subst hj1; rw [hWi]; exact hcmp)
        hstrict

theorem findMinIdx_spec (ws : List Worker) (h : ws ≠ []) :
    findMinIdx ws < ws.length ∧
    (∀ j, j < ws.length →
      (ws.getD (findMinIdx ws) dworker).Total ≤ (ws.getD j dworker).Total) ∧
    (∀ j, j < findMinIdx ws →
      (ws.getD (findMinIdx ws) dworker).Total < (ws.getD j dworker).Total) := by
  match ws, h with
  | w :: rest, _ =>
    have h0 : ((w :: rest).getD 0 dworker) = w := rfl
    have hdrop : (w :: rest).drop 1 = rest := rfl
    have hspec := findMinIdxGo_spec (w :: rest) rest 1 0 hdrop
      (by simp) (fun j hj => by interval_cases j; exact le_refl _)
      (fun j hj => absurd hj (Nat.not_lt_zero j))
    rw [h0] at hspec
    exact hspec

theorem sum_map_set {M : Type} [AddCommMonoid M] (f : Worker → M) :
    ∀ (ws : List Worker) (i : Nat) (w : Worker), i < ws.length →
      ((ws.set i w).map f).sum + f (ws.getD i dworker) = (ws.map f).sum + f w
  | [], i, w, h => absurd h (by simp)
  | w0 :: rest, 0, w, _ => by
    simp [List.set, add_comm, add_assoc, add_left_comm]
  | w0 :: rest, i + 1, w, h => by
    have hi : i < rest.length := by simpa using h
    have ih := sum_map_set f rest i w hi
    simp only [List.set, List.map_cons, List.sum_cons, List.getD_cons_succ]
    rw [add_assoc, add_assoc, ih]

theorem findMinIdx_lt (ws : List Worker) (h : ws ≠ []) :
    findMinIdx ws < ws.length :=
  (findMinIdx_spec ws h).1

theorem assign_eq (ws : List Worker) (t : Test) (h : ws ≠ []) :
    assign ws t = ws.set (findMinIdx ws)
      { Tests := (ws.getD (findMinIdx ws) dworker).Tests ++ [t]
        Total := (ws.getD (findMinIdx ws) dworker).Total + t.Time } := by
  have hlt := findMinIdx_lt ws h
  unfold assign
  rw [List.getElem?_eq_getElem hlt]
  rw [getD_eq_get ws _ hlt]
  rfl

theorem assign_length (ws : List Worker) (t : Test) :
    (assign ws t).length = ws.length := by
  unfold assign
  cases ws[findMinIdx ws]? <;> simp

theorem assign_ne_nil (ws : List Worker) (t : Test) (h : ws ≠ []) :
    assign ws t ≠ [] := by
  intro hc
  have := assign_length ws t
  rw [hc] at this
  exact h (List.eq_nil_of_length_eq_zero this.symm)

theorem assign_testsOf (ws : List Worker) (t : Test) (h : ws ≠ []) :
    testsOf (assign ws t) = testsOf ws + {t} := by
  have hlt := findMinIdx_lt ws h
  rw [assign_eq ws t h]
  have hs := sum_map_set (fun w => (w.Tests : Multiset Test)) ws
    (findMinIdx ws)
    { Tests := (ws.getD (findMinIdx ws) dworker).Tests ++ [t]
      Total := (ws.getD (findMinIdx ws) dworker).Total + t.Time } hlt
  simp only at hs
  unfold testsOf
  apply add_right_cancel
    (b := ((ws.getD (findMinIdx ws) dworker).Tests : Multiset Test))
  rw [hs]
  have hco : (((ws.getD (findMinIdx ws) dworker).Tests ++ [t] : List Test) :
      Multiset Test) =
      ((ws.getD (findMinIdx ws) dworker).Tests : Multiset Test) + {t} := by
    rw [← Multiset.coe_singleton t, ← Multiset.coe_add]
  rw [hco]
  abel

theorem assign_totalOf (ws : List Worker) (t : Test) (h : ws ≠ []) :
    totalOf (assign ws t) = totalOf ws + t.Time := by
  have hlt := findMinIdx_lt ws h
  rw [assign_eq ws t h]
  have hs := sum_map_set Worker.Total ws (findMinIdx ws)
    { Tests := (ws.getD (findMinIdx ws) dworker).Tests ++ [t]
      Total := (ws.getD (findMinIdx ws) dworker).Total + t.Time } hlt
  simp only at hs
  unfold totalOf
  apply add_right_cancel (b := (ws.getD (findMinIdx ws) dworker).Total)
  rw [hs]
  ring

theorem assign_nonemptyCount (ws : List Worker) (t : Test) :
    nonemptyCount (assign ws t) ≤ nonemptyCount ws + 1 := by
  by_cases h : ws = []
  · subst h
    simp [assign, nonemptyCount]
  · have hlt := findMinIdx_lt ws h
    rw [assign_eq ws t h]
    have hs := sum_map_set (fun w => if w.Tests = [] then 0 else 1) ws
      (findMinIdx ws)
      { Tests := (ws.getD (findMinIdx ws) dworker).Tests ++ [t]
        Total := (ws.getD (findMinIdx ws) dworker).Total + t.Time } hlt
    simp only at hs
    have he : (if (ws.getD (findMinIdx ws) dworker).Tests ++ [t] = []
        then (0 : Nat) else 1) = 1 := by simp
    rw [he] at hs
    unfold nonemptyCount
    omega

theorem assign_empty_total_zero (ws : List Worker) (t : Test)
    (h : ∀ w ∈ ws, w.Tests = [] → w.Total = 0) :
    ∀ w ∈ assign ws t, w.Tests = [] → w.Total = 0 := by
  intro w hw hempty
  unfold assign at hw
  rcases hcase : ws[findMinIdx ws]? with _ | w0
  · rw [hcase] at hw
    exact h w hw hempty
  · rw [hcase] at hw
    rcases List.mem_or_eq_of_mem_set hw with hmem | heq
    · exact h w hmem hempty
    · rw [heq] at hempty
      simp at hempty

theorem foldl_assign_length (ts : List Test) :
    ∀ ws : List Worker, (List.foldl assign ws ts).length = ws.length := by
  induction ts with
  | nil => intro ws; rfl
  | cons t ts ih =>
    intro ws
    rw [List.foldl_cons, ih (assign ws t), assign_length]

theorem foldl_assign_testsOf (ts : List Test) :
    ∀ ws : List Worker, ws ≠ [] →
      testsOf (List.foldl assign ws ts) = testsOf ws + (ts : Multiset Test) := by
  induction ts with
  | nil => intro ws _; simp
  | cons t ts ih =>
    intro ws hne
    rw [List.foldl_cons, ih (assign ws t) (assign_ne_nil ws t hne),
      assign_testsOf ws t hne]
    have : ((t :: ts : List Test) : Multiset Test) = {t} + (ts : Multiset Test) := by
      simp [Multiset.singleton_add]
    rw [this]
    abel

theorem foldl_assign_totalOf (ts : List Test) :
    ∀ ws : List Worker, ws ≠ [] →
      totalOf (List.foldl assign ws ts) =
        totalOf ws + (ts.map Test.Time).sum := by
  induction ts with
  | nil => intro ws _; simp
  | cons t ts ih =>
    intro ws hne
    rw [List.foldl_cons, ih (assign ws t) (assign_ne_nil ws t hne),
      assign_totalOf ws t hne]
    simp
    ring

theorem foldl_assign_nonemptyCount (ts : List Test) :
    ∀ ws : List Worker,
      nonemptyCount (List.foldl assign ws ts) ≤ nonemptyCount ws + ts.length := by
  induction ts with
  | nil => intro ws; simp
  | cons t ts ih =>
    intro ws
    calc nonemptyCount (List.foldl assign (assign ws t) ts)
        ≤ nonemptyCount (assign ws t) + ts.length := ih (assign ws t)
      _ ≤ nonemptyCount ws + 1 + ts.length := by
          have := assign_nonemptyCount ws t
          omega
      _ = nonemptyCount ws + (t :: ts).length := by simp; omega

theorem foldl_assign_empty_total_zero (ts : List Test) :
    ∀ ws : List Worker, (∀ w ∈ ws, w.Tests = [] → w.Total = 0) →
      ∀ w ∈ List.foldl assign ws ts, w.Tests = [] → w.Total = 0 := by
  induction ts with
  | nil => intro ws h; exact h
  | cons t ts ih =>
    intro ws h
    exact ih (assign ws t) (assign_empty_total_zero ws t h)

theorem newAllocator_length (n : Nat) : (NewAllocator n).workers.length = n := by
  simp [NewAllocator]

theorem newAllocator_ne_nil (n : Nat) (h : 1 ≤ n) :
    (NewAllocator n).workers ≠ [] := by
  intro hc
  have hl := newAllocator_length n
  rw [hc] at hl
  simp at hl
  omega

theorem newAllocator_testsOf (n : Nat) : testsOf (NewAllocator n).workers = 0 := by
  induction n with
  | zero => rfl
  | succ m ih =>
    unfold testsOf NewAllocator at ih ⊢
    rw [List.replicate_succ]
    simp

theorem newAllocator_totalOf (n : Nat) : totalOf (NewAllocator n).workers = 0 := by
  induction n with
  | zero => rfl
  | succ m ih =>
    unfold totalOf NewAllocator at ih ⊢
    rw [List.replicate_succ]
    simp

theorem newAllocator_nonemptyCount (n : Nat) :
    nonemptyCount (NewAllocator n).workers = 0 := by
  induction n with
  | zero => rfl
  | succ m ih =>
    unfold nonemptyCount NewAllocator at ih ⊢
    rw [List.replicate_succ]
    simp

/-! ### Claim theorems -/

/-- C1: Conservation — for every input test sequence and `workerCount ≥ 1`,
after `Allocator.Distribute` the multiset union of all workers' assigned
tests equals the input multiset exactly (no test duplicated, none lost),
and the sum of the workers' cumulative `Total`s equals the sum of the
input tests' `Time`s (exactly; `Rat` models the float sums, which the Go
code performs in a fixed order). -/
theorem distribute_conservation (tests : List Test) (workerCount : Nat)
    (hn : 1 ≤ workerCount) :
    testsOf ((NewAllocator workerCount).Distribute tests).workers
      = (tests : Multiset Test) ∧
    totalOf ((NewAllocator workerCount).Distribute tests).workers
      = (tests.map Test.Time).sum := by
  have hne := newAllocator_ne_nil workerCount hn
  have hw : ((NewAllocator workerCount).Distribute tests).workers
      = List.foldl assign (NewAllocator workerCount).workers tests := rfl
  constructor
  · rw [hw, foldl_assign_testsOf tests _ hne, newAllocator_testsOf]
    simp
  · rw [hw, foldl_assign_totalOf tests _ hne, newAllocator_totalOf]
    simp

/-- Witness for C1 at tests `[{a, 2}, {b, 1}]`, `workerCount = 2`. -/
theorem distribute_conservation_witness :
    testsOf ((NewAllocator 2).Distribute [⟨"a", 2⟩, ⟨"b", 1⟩]).workers
      = ([⟨"a", 2⟩, ⟨"b", 1⟩] : List Test) ∧
    totalOf ((NewAllocator 2).Distribute [⟨"a", 2⟩, ⟨"b", 1⟩]).workers
      = (([⟨"a", 2⟩, ⟨"b", 1⟩] : List Test).map Test.Time).sum :=
  distribute_conservation [⟨"a", 2⟩, ⟨"b", 1⟩] 2 (by decide)

/-- C2: Greedy step — in any run of `Allocator.Distribute` (state after
processing the prefix `pre`), the next test `t` is appended to the worker
at index `findMinIdx`, whose pre-assignment `Total` is `≤` the
pre-assignment `Total` of every other worker, and every worker at a lower
index has a strictly larger `Total` (so among all workers attaining the
minimum, the one with the lowest index is chosen). -/
theorem distribute_greedy_step (workerCount : Nat) (hn : 1 ≤ workerCount)
    (pre : List Test) (t : Test) :
    ((NewAllocator workerCount).Distribute (pre ++ [t])).workers
      = (((NewAllocator workerCount).Distribute pre).workers).set
          (findMinIdx ((NewAllocator workerCount).Distribute pre).workers)
          { Tests := ((((NewAllocator workerCount).Distribute pre).workers).getD
              (findMinIdx ((NewAllocator workerCount).Distribute pre).workers)
              dworker).Tests ++ [t]
            Total := ((((NewAllocator workerCount).Distribute pre).workers).getD
              (findMinIdx ((NewAllocator workerCount).Distribute pre).workers)
              dworker).Total + t.Time } ∧
    (∀ j, j < (((NewAllocator workerCount).Distribute pre).workers).length →
      ((((NewAllocator workerCount).Distribute pre).workers).getD
          (findMinIdx ((NewAllocator workerCount).Distribute pre).workers)
          dworker).Total ≤
        ((((NewAllocator workerCount).Distribute pre).workers).getD j
          dworker).Total) ∧
    (∀ j, j < findMinIdx ((NewAllocator workerCount).Distribute pre).workers →
      ((((NewAllocator workerCount).Distribute pre).workers).getD
          (findMinIdx ((NewAllocator workerCount).Distribute pre).workers)
          dworker).Total <
        ((((NewAllocator workerCount).Distribute pre).workers).getD j
          dworker).Total) := by
  have hlen : (((NewAllocator workerCount).Distribute pre).workers).length
      = workerCount := by
    have h1 := foldl_assign_length pre (NewAllocator workerCount).workers
    have h2 := newAllocator_length workerCount
    exact h1.trans h2
  have hne : ((NewAllocator workerCount).Distribute pre).workers ≠ [] := by
    intro hc
    rw [hc] at hlen
    simp at hlen
    omega
  have hspec := findMinIdx_spec _ hne
  refine ⟨?_, hspec.2.1, hspec.2.2⟩
  have hw : ((NewAllocator workerCount).Distribute (pre ++ [t])).workers
      = assign ((NewAllocator workerCount).Distribute pre).workers t := by
    show List.foldl assign (NewAllocator workerCount).workers (pre ++ [t])
      = assign (List.foldl assign (NewAllocator workerCount).workers pre) t
    rw [List.foldl_append]
    rfl
  rw [hw, assign_eq _ t hne]

/-- Witness for C2 at `workerCount = 2`, prefix `[{a, 5}]`, next test
`{b, 3}`. -/
theorem distribute_greedy_step_witness :
    ((NewAllocator 2).Distribute ([⟨"a", 5⟩] ++ [⟨"b", 3⟩])).workers
      = (((NewAllocator 2).Distribute [⟨"a", 5⟩]).workers).set
          (findMinIdx ((NewAllocator 2).Distribute [⟨"a", 5⟩]).workers)
          { Tests := ((((NewAllocator 2).Distribute [⟨"a", 5⟩]).workers).getD
              (findMinIdx ((NewAllocator 2).Distribute [⟨"a", 5⟩]).workers)
              dworker).Tests ++ [⟨"b", 3⟩]
            Total := ((((NewAllocator 2).Distribute [⟨"a", 5⟩]).workers).getD
              (findMinIdx ((NewAllocator 2).Distribute [⟨"a", 5⟩]).workers)
              dworker).Total + (⟨"b", 3⟩ : Test).Time } ∧
    (∀ j, j < (((NewAllocator 2).Distribute [⟨"a", 5⟩]).workers).length →
      ((((NewAllocator 2).Distribute [⟨"a", 5⟩]).workers).getD
          (findMinIdx ((NewAllocator 2).Distribute [⟨"a", 5⟩]).workers)
          dworker).Total ≤
        ((((NewAllocator 2).Distribute [⟨"a", 5⟩]).workers).getD j
          dworker).Total) ∧
    (∀ j, j < findMinIdx ((NewAllocator 2).Distribute [⟨"a", 5⟩]).workers →
      ((((NewAllocator 2).Distribute [⟨"a", 5⟩]).workers).getD
          (findMinIdx ((NewAllocator 2).Distribute [⟨"a", 5⟩]).workers)
          dworker).Total <
        ((((NewAllocator 2).Distribute [⟨"a", 5⟩]).workers).getD j
          dworker).Total) :=
  distribute_greedy_step 2 (by decide) [⟨"a", 5⟩] ⟨"b", 3⟩

/-- C5: Out-of-range lookup — `Allocator.GetWorker i` returns the
explicit not-found signal (`none`, modelling `nil`) exactly when `i < 0`
or `i ≥ workerCount` (the function is total, so no panic or fabricated
default worker), and returns the worker at index `i` otherwise. -/
theorem getWorker_spec (a : Allocator) (i : Int) :
    (a.GetWorker i = none ↔ i < 0 ∨ (a.workers.length : Int) ≤ i) ∧
    (0 ≤ i → i < (a.workers.length : Int) →
      a.GetWorker i = some (a.workers.getD i.toNat dworker)) := by
  unfold Allocator.GetWorker
  by_cases h : i < 0 ∨ (a.workers.length : Int) ≤ i
  · rw [if_pos h]
    exact ⟨iff_of_true rfl h, fun h1 h2 => absurd h (by omega)⟩
  · rw [if_neg h]
    push_neg at h
    have hi : i.toNat < a.workers.length := by omega
    rw [List.getElem?_eq_getElem hi, getD_eq_get _ _ hi]
    refine ⟨iff_of_false (by simp) (by omega), fun _ _ => rfl⟩

/-- Witness for C5: a two-worker allocator answers `none` at `-1` and at
`2`, and the worker at index `1` otherwise. -/
theorem getWorker_spec_witness :
    (NewAllocator 2).GetWorker (-1) = none ∧
    (NewAllocator 2).GetWorker 2 = none ∧
    (NewAllocator 2).GetWorker 1
      = some ((NewAllocator 2).workers.getD 1 dworker) :=
  ⟨(getWorker_spec (NewAllocator 2) (-1)).1.mpr (by decide),
   (getWorker_spec (NewAllocator 2) 2).1.mpr (by decide),
   (getWorker_spec (NewAllocator 2) 1).2 (by decide) (by decide)⟩

/-- C8: More workers than items — with `tests.length < workerCount` and
positive times, `Distribute` still exposes exactly `workerCount` workers,
at most `tests.length` of them are non-empty, and every worker left with
an empty test sequence has cumulative `Total` 0; in the concrete instance
`[{a, 10}, {b, 20}]` with `workerCount = 5`, exactly 2 workers are
non-empty, holding totals 10 and 20, and the other 3 are empty with
total 0. -/
theorem distribute_extra_workers (tests : List Test) (workerCount : Nat)
    (_hpos : ∀ t ∈ tests, 0 < t.Time) (_hn : tests.length < workerCount) :
    (((NewAllocator workerCount).Distribute tests).workers).length
      = workerCount ∧
    nonemptyCount ((NewAllocator workerCount).Distribute tests).workers
      ≤ tests.length ∧
    (∀ w ∈ ((NewAllocator workerCount).Distribute tests).workers,
      w.Tests = [] → w.Total = 0) ∧
    (((NewAllocator 5).Distribute [⟨"a", 10⟩, ⟨"b", 20⟩]).workers).map
        Worker.Total = [10, 20, 0, 0, 0] ∧
    (((NewAllocator 5).Distribute [⟨"a", 10⟩, ⟨"b", 20⟩]).workers).map
        (fun w => w.Tests.length) = [1, 1, 0, 0, 0] ∧
    nonemptyCount ((NewAllocator 5).Distribute [⟨"a", 10⟩, ⟨"b", 20⟩]).workers
      = 2 := by
  refine ⟨?_, ?_, ?_, by decide, by decide, by decide⟩
  · exact (foldl_assign_length tests _).trans (newAllocator_length workerCount)
  · have h1 := foldl_assign_nonemptyCount tests (NewAllocator workerCount).workers
    rw [newAllocator_nonemptyCount] at h1
    simpa using h1
  · apply foldl_assign_empty_total_zero
    intro w hw _
    have := List.eq_of_mem_replicate hw
    rw [this]

/-- Witness for C8 at tests `[{a, 10}, {b, 20}]`, `workerCount = 5`. -/
theorem distribute_extra_workers_witness :
    (((NewAllocator 5).Distribute [⟨"a", 10⟩, ⟨"b", 20⟩]).workers).length = 5 ∧
    nonemptyCount ((NewAllocator 5).Distribute [⟨"a", 10⟩, ⟨"b", 20⟩]).workers
      ≤ ([⟨"a", 10⟩, ⟨"b", 20⟩] : List Test).length ∧
    (∀ w ∈ ((NewAllocator 5).Distribute [⟨"a", 10⟩, ⟨"b", 20⟩]).workers,
      w.Tests = [] → w.Total = 0) :=
  have h := distribute_extra_workers [⟨"a", 10⟩, ⟨"b", 20⟩] 5
    (by decide) (by decide)
  ⟨h.1, h.2.1, h.2.2.1⟩

/-- C9: Idempotent statistics — with the receiver state threaded
explicitly through each call (`GetStatsS`), computing the statistics
leaves the allocator unchanged, and a second call on the resulting state
returns an identical `Distribution`: the computation performs no hidden
mutation of the allocation. -/
theorem getStats_idempotent (a : Allocator) :
    a.GetStatsS.2 = a ∧
    (a.GetStatsS.2.GetStatsS).1 = a.GetStatsS.1 ∧
    (a.GetStatsS.2.GetStatsS).2.GetWorkers = a.GetWorkers :=
  ⟨rfl, rfl, rfl⟩

/-- C10: `Splitter.Split` sorts the caller's test slice in place before
distributing: the slice it leaves behind (returned alongside the
allocator to model the in-place permutation) is a permutation of the
input ordered by non-increasing `Time`, and the allocator is built by
distributing exactly that sorted slice, not the caller's original
order. -/
theorem split_sorts_in_place (tests : List Test) (numWorkers : Nat) :
    (Split tests numWorkers).1.Perm tests ∧
    List.Sorted (fun a b => b.Time ≤ a.Time) (Split tests numWorkers).1 ∧
    (Split tests numWorkers).1 = SortTests tests ∧
    (Split tests numWorkers).2
      = (NewAllocator numWorkers).Distribute (Split tests numWorkers).1 :=
  ⟨List.perm_insertionSort _ tests,
   List.sorted_insertionSort (fun a b => b.Time ≤ a.Time) tests,
   rfl, rfl⟩

theorem filterMap_readTestLine_names (times : List (String × Rat)) :
    ∀ lines : List String,
      (lines.filterMap (readTestLine times)).map Test.Name = keptNames lines
  | [] => rfl
  | l :: ls => by
    have ih := filterMap_readTestLine_names times ls
    unfold keptNames at ih ⊢
    by_cases h : trimSpace l = ""
    · simp only [List.filterMap_cons, readTestLine, h, List.map_cons,
        List.filter_cons]
      simpa [h] using ih
    · simp only [List.filterMap_cons, readTestLine, List.map_cons,
        List.filter_cons, if_neg h]
      simpa [h] using ih

/-- C7: Normalization and empty-input error — `ReadTests` strips
leading/trailing whitespace from each line before use as the allocation
key, discards lines that are blank after stripping, preserves the order
of the remaining identifiers, and returns an error exactly when zero
identifiers remain after discarding blank lines. -/
theorem readTests_normalization (lines : List String)
    (times : List (String × Rat)) :
    ((∃ e, ReadTests lines times = Except.error e) ↔ keptNames lines = []) ∧
    (∀ tests, ReadTests lines times = Except.ok tests →
      tests.map Test.Name = keptNames lines) := by
  have hnames := filterMap_readTestLine_names times lines
  constructor
  · constructor
    · rintro ⟨e, he⟩
      unfold ReadTests at he
      by_cases hlen : (lines.filterMap (readTestLine times)).length = 0
      · rw [← hnames, List.length_eq_zero.mp hlen]
        rfl
      · rw [if_neg hlen] at he
        exact Except.noConfusion he
    · intro hk
      refine ⟨"no tests provided", ?_⟩
      unfold ReadTests
      have hlen : (lines.filterMap (readTestLine times)).length = 0 := by
        have hcongr := congrArg List.length hnames
        rw [hk] at hcongr
        simpa using hcongr
      rw [if_pos hlen]
  · intro tests ht
    unfold ReadTests at ht
    by_cases hlen : (lines.filterMap (readTestLine times)).length = 0
    · rw [if_pos hlen] at ht
      exact Except.noConfusion ht
    · rw [if_neg hlen] at ht
      rw [← Except.ok.inj ht, hnames]

/-- Witness for C7: a line with surrounding blanks and a blank line keep
only the trimmed identifier, and an all-blank input yields the error. -/
theorem readTests_normalization_witness :
    (∃ e, ReadTests ["  ", ""] [] = Except.error e) ∧
    (([⟨"a1", 1⟩] : List Test).map Test.Name = keptNames [" a1 ", ""]) :=
  ⟨(readTests_normalization ["  ", ""] []).1.mpr (by decide),
   (readTests_normalization [" a1 ", ""] []).2 [⟨"a1", 1⟩] (by rfl)⟩

/-- C6: Default weight substitution — every test retained by `ReadTests`
carries the recorded weight from the historical mapping when that
recorded weight is nonzero, and the default weight `1.0` when the
identifier is missing from the mapping or its recorded weight is zero;
weight `0` is never an assigned weight. -/
theorem readTests_default_weight (lines : List String)
    (times : List (String × Rat)) (tests : List Test)
    (h : ReadTests lines times = Except.ok tests) :
    ∀ t ∈ tests,
      (lookupTime times t.Name ≠ 0 → t.Time = lookupTime times t.Name) ∧
      (lookupTime times t.Name = 0 → t.Time = DefaultTestTime) ∧
      t.Time ≠ 0 := by
  intro t ht
  have htests : tests = lines.filterMap (readTestLine times) := by
    unfold ReadTests at h
    by_cases hlen : (lines.filterMap (readTestLine times)).length = 0
    · rw [if_pos hlen] at h
      exact Except.noConfusion h
    · rw [if_neg hlen] at h
      exact (Except.ok.inj h).symm
  rw [htests] at ht
  obtain ⟨line, _, hline⟩ := List.mem_filterMap.mp ht
  unfold readTestLine at hline
  by_cases hblank : trimSpace line = ""
  · rw [if_pos hblank] at hline
    exact Option.noConfusion hline
  · rw [if_neg hblank] at hline
    have ht' := Option.some.inj hline
    by_cases hzero : lookupTime times (trimSpace line) = 0
    · rw [if_pos hzero] at ht'
      rw [← ht']
      exact ⟨fun hnz => absurd hzero hnz, fun _ => rfl,
        by norm_num [DefaultTestTime]⟩
    · rw [if_neg hzero] at ht'
      rw [← ht']
      exact ⟨fun _ => rfl, fun hz => absurd hz hzero, hzero⟩

/-- Witness for C6 at lines `[" a1 ", "zero", "miss"]` with recorded
times `a1 ↦ 5`, `zero ↦ 0`: `a1` keeps 5, `zero` and `miss` get the
default 1. -/
theorem readTests_default_weight_witness :
    (⟨"zero", 1⟩ : Test) ∈ ([⟨"a1", 5⟩, ⟨"zero", 1⟩, ⟨"miss", 1⟩] : List Test) ∧
    ((lookupTime [("a1", 5), ("zero", 0)] (Test.Name ⟨"zero", 1⟩) ≠ 0 →
        Test.Time ⟨"zero", 1⟩ = lookupTime [("a1", 5), ("zero", 0)] (Test.Name ⟨"zero", 1⟩)) ∧
      (lookupTime [("a1", 5), ("zero", 0)] (Test.Name ⟨"zero", 1⟩) = 0 →
        Test.Time ⟨"zero", 1⟩ = DefaultTestTime) ∧
      Test.Time (⟨"zero", 1⟩ : Test) ≠ 0) :=
  ⟨by decide,
   readTests_default_weight [" a1 ", "zero", "miss"] [("a1", 5), ("zero", 0)]
     [⟨"a1", 5⟩, ⟨"zero", 1⟩, ⟨"miss", 1⟩] (by rfl) ⟨"zero", 1⟩ (by decide)⟩

theorem if_lt_eq_min (a t : Rat) : (if t < a then t else a) = min a t := by
  rcases lt_or_le t a with h | h
  · rw [if_pos h, min_eq_right (le_of_lt h)]
  · rw [if_neg (not_lt.mpr h), min_eq_left h]

theorem if_gt_eq_max (b t : Rat) : (if t > b then t else b) = max b t := by
  rcases lt_or_le b t with h | h
  · rw [if_pos h, max_eq_right (le_of_lt h)]
  · rw [if_neg (not_lt.mpr h), max_eq_left h]

theorem scanTimes_eq_foldl (ts : List Test) :
    ∀ a b : Rat, scanTimes ts a b =
      ((ts.map Test.Time).foldl min a, (ts.map Test.Time).foldl max b) := by
  induction ts with
  | nil => intro a b; rfl
  | cons t ts ih =>
    intro a b
    unfold scanTimes
    rw [if_lt_eq_min a t.Time, if_gt_eq_max b t.Time, ih]
    rfl

theorem foldl_min_le_init (l : List Rat) : ∀ a : Rat, l.foldl min a ≤ a := by
  induction l with
  | nil => intro a; exact le_refl a
  | cons b l ih =>
    intro a
    exact le_trans (ih (min a b)) (min_le_left a b)

theorem foldl_min_le_mem (l : List Rat) :
    ∀ a x : Rat, x ∈ l → l.foldl min a ≤ x := by
  induction l with
  | nil => intro a x hx; exact absurd hx (List.not_mem_nil x)
  | cons b l ih =>
    intro a x hx
    rcases List.mem_cons.mp hx with h | h
    · subst h
      exact le_trans (foldl_min_le_init l (min a x)) (min_le_right a x)
    · exact ih (min a b) x h

theorem foldl_min_eq_init_or_mem (l : List Rat) :
    ∀ a : Rat, l.foldl min a = a ∨ l.foldl min a ∈ l := by
  induction l with
  | nil => intro a; exact Or.inl rfl
  | cons b l ih =>
    intro a
    rcases ih (min a b) with h | h
    · rcases min_choice a b with hm | hm
      · exact Or.inl (h.trans hm)
      · exact Or.inr (List.mem_cons.mpr (Or.inl (h.trans hm)))
    · exact Or.inr (List.mem_cons.mpr (Or.inr h))

theorem foldl_max_init_le (l : List Rat) : ∀ a : Rat, a ≤ l.foldl max a := by
  induction l with
  | nil => intro a; exact le_refl a
  | cons b l ih =>
    intro a
    exact le_trans (le_max_left a b) (ih (max a b))

theorem foldl_max_mem_le (l : List Rat) :
    ∀ a x : Rat, x ∈ l → x ≤ l.foldl max a := by
  induction l with
  | nil => intro a x hx; exact absurd hx (List.not_mem_nil x)
  | cons b l ih =>
    intro a x hx
    rcases List.mem_cons.mp hx with h | h
    · subst h
      exact le_trans (le_max_right a x) (foldl_max_init_le l (max a x))
    · exact ih (max a b) x h

theorem foldl_max_eq_init_or_mem (l : List Rat) :
    ∀ a : Rat, l.foldl max a = a ∨ l.foldl max a ∈ l := by
  induction l with
  | nil => intro a; exact Or.inl rfl
  | cons b l ih =>
    intro a
    rcases ih (max a b) with h | h
    · rcases max_choice a b with hm | hm
      · exact Or.inl (h.trans hm)
      · exact Or.inr (List.mem_cons.mpr (Or.inl (h.trans hm)))
    · exact Or.inr (List.mem_cons.mpr (Or.inr h))

theorem workerStats_minmax (i : Nat) (w : Worker)
    (hpos : ∀ t ∈ w.Tests, 0 < t.Time ∧ t.Time ≤ maxFloat64) :
    (w.Tests = [] →
      (workerStats i w).MinTime = 0 ∧ (workerStats i w).MaxTime = 0) ∧
    (w.Tests ≠ [] →
      ((workerStats i w).MinTime ∈ w.Tests.map Test.Time ∧
        ∀ x ∈ w.Tests.map Test.Time, (workerStats i w).MinTime ≤ x) ∧
      ((workerStats i w).MaxTime ∈ w.Tests.map Test.Time ∧
        ∀ x ∈ w.Tests.map Test.Time, x ≤ (workerStats i w).MaxTime)) := by
  constructor
  · intro hempty
    unfold workerStats
    rw [hempty]
    exact ⟨rfl, rfl⟩
  · intro hne
    have hlen : w.Tests.length ≠ 0 := fun hc => hne (List.eq_nil_of_length_eq_zero hc)
    obtain ⟨t0, ht0⟩ := List.exists_mem_of_ne_nil w.Tests hne
    have ht0' : t0.Time ∈ w.Tests.map Test.Time := List.mem_map_of_mem Test.Time ht0
    have hmin : (workerStats i w).MinTime
        = (w.Tests.map Test.Time).foldl min maxFloat64 := by
      unfold workerStats
      rw [scanTimes_eq_foldl]
      simp [hlen]
    have hmax : (workerStats i w).MaxTime
        = (w.Tests.map Test.Time).foldl max 0 := by
      unfold workerStats
      rw [scanTimes_eq_foldl]
    constructor
    · refine ⟨?_, ?_⟩
      · rcases foldl_min_eq_init_or_mem (w.Tests.map Test.Time) maxFloat64
          with h | h
        · rw [hmin, h]
          have hle := foldl_min_le_mem (w.Tests.map Test.Time) maxFloat64
            t0.Time ht0'
          rw [h] at hle
          have hub : t0.Time ≤ maxFloat64 := (hpos t0 ht0).2
          have : maxFloat64 = t0.Time := le_antisymm hle hub
          rw [this]
          exact ht0'
        · rw [hmin]
          exact h
      · intro x hx
        rw [hmin]
        exact foldl_min_le_mem (w.Tests.map Test.Time) maxFloat64 x hx
    · refine ⟨?_, ?_⟩
      · rcases foldl_max_eq_init_or_mem (w.Tests.map Test.Time) 0 with h | h
        · have hle := foldl_max_mem_le (w.Tests.map Test.Time) 0 t0.Time ht0'
          rw [h] at hle
          have := (hpos t0 ht0).1
          exact absurd hle (not_le.mpr this)
        · rw [hmax]
          exact h
      · intro x hx
        rw [hmax]
        exact foldl_max_mem_le (w.Tests.map Test.Time) 0 x hx

theorem statsList_length : ∀ (ws : List Worker) (i0 : Nat),
    (statsList i0 ws).length = ws.length
  | [], _ => rfl
  | w :: ws, i0 => by
    unfold statsList
    rw [List.length_cons, List.length_cons, statsList_length ws (i0 + 1)]

theorem statsList_getD : ∀ (ws : List Worker) (i0 j : Nat), j < ws.length →
    (statsList i0 ws).getD j dstats = workerStats (i0 + j) (ws.getD j dworker)
  | [], _, j, h => absurd h (by simp)
  | w :: ws, i0, 0, _ => by
    unfold statsList
    rfl
  | w :: ws, i0, j + 1, h => by
    unfold statsList
    have hj : j < ws.length := by simpa using h
    have ih := statsList_getD ws (i0 + 1) j hj
    have harith : i0 + 1 + j = i0 + (j + 1) := by omega
    rw [List.getD_cons_succ, List.getD_cons_succ, ih, harith]

/-- C4: Statistics postconditions — for an allocator with `workerCount ≥ 1`
whose assigned test times are all positive (and representable, i.e. at
most `math.MaxFloat64`), `GetStats` returns `TotalTime` equal to the sum
of all workers' cumulative `Total`s, `AvgTime` equal to
`TotalTime / workerCount`, and for each worker: `TestCount` equal to the
length of its test sequence, `TestTimes` the sequence of its test times,
`MinTime`/`MaxTime` equal to the minimum/maximum of that worker's test
times, and `MinTime = MaxTime = 0` with empty `TestTimes` when
`TestCount` is 0. -/
theorem getStats_spec (a : Allocator) (_hn : 1 ≤ a.workers.length)
    (hpos : ∀ w ∈ a.workers, ∀ t ∈ w.Tests, 0 < t.Time ∧ t.Time ≤ maxFloat64) :
    a.GetStats.TotalTime = totalOf a.workers ∧
    a.GetStats.AvgTime = a.GetStats.TotalTime / (a.workers.length : Rat) ∧
    a.GetStats.Workers.length = a.workers.length ∧
    ∀ j, j < a.workers.length →
      (a.GetStats.Workers.getD j dstats).Index = j ∧
      (a.GetStats.Workers.getD j dstats).Total
        = (a.workers.getD j dworker).Total ∧
      (a.GetStats.Workers.getD j dstats).TestCount
        = (a.workers.getD j dworker).Tests.length ∧
      (a.GetStats.Workers.getD j dstats).TestTimes
        = (a.workers.getD j dworker).Tests.map Test.Time ∧
      ((a.workers.getD j dworker).Tests = [] →
        (a.GetStats.Workers.getD j dstats).MinTime = 0 ∧
        (a.GetStats.Workers.getD j dstats).MaxTime = 0 ∧
        (a.GetStats.Workers.getD j dstats).TestTimes = []) ∧
      ((a.workers.getD j dworker).Tests ≠ [] →
        ((a.GetStats.Workers.getD j dstats).MinTime
            ∈ (a.workers.getD j dworker).Tests.map Test.Time ∧
          ∀ x ∈ (a.workers.getD j dworker).Tests.map Test.Time,
            (a.GetStats.Workers.getD j dstats).MinTime ≤ x) ∧
        ((a.GetStats.Workers.getD j dstats).MaxTime
            ∈ (a.workers.getD j dworker).Tests.map Test.Time ∧
          ∀ x ∈ (a.workers.getD j dworker).Tests.map Test.Time,
            x ≤ (a.GetStats.Workers.getD j dstats).MaxTime)) := by
  have hW : a.GetStats.Workers = statsList 0 a.workers := rfl
  refine ⟨rfl, rfl, ?_, ?_⟩
  · rw [hW, statsList_length]
  · intro j hj
    have hget : a.GetStats.Workers.getD j dstats
        = workerStats j (a.workers.getD j dworker) := by
      rw [hW, statsList_getD a.workers 0 j hj, Nat.zero_add]
    have hmem : a.workers.getD j dworker ∈ a.workers := by
      rw [getD_eq_get a.workers j hj]
      exact List.get_mem a.workers j hj
    have hspec := workerStats_minmax j (a.workers.getD j dworker)
      (hpos _ hmem)
    rw [hget]
    refine ⟨rfl, rfl, rfl, rfl, ?_, hspec.2⟩
    intro hempty
    refine ⟨(hspec.1 hempty).1, (hspec.1 hempty).2, ?_⟩
    unfold workerStats
    rw [hempty]
    rfl

/-- Witness for C4 on the allocator distributing `[{a, 3}, {b, 2}]` over
two workers. -/
theorem getStats_spec_witness :
    ((NewAllocator 2).Distribute [⟨"a", 3⟩, ⟨"b", 2⟩]).GetStats.TotalTime
      = totalOf ((NewAllocator 2).Distribute [⟨"a", 3⟩, ⟨"b", 2⟩]).workers ∧
    ((NewAllocator 2).Distribute [⟨"a", 3⟩, ⟨"b", 2⟩]).GetStats.Workers.length
      = ((NewAllocator 2).Distribute [⟨"a", 3⟩, ⟨"b", 2⟩]).workers.length ∧
    (((NewAllocator 2).Distribute [⟨"a", 3⟩, ⟨"b", 2⟩]).GetStats.Workers.getD
        0 dstats).TestCount
      = (((NewAllocator 2).Distribute [⟨"a", 3⟩,
          ⟨"b", 2⟩]).workers.getD 0 dworker).Tests.length :=
  have h := getStats_spec ((NewAllocator 2).Distribute [⟨"a", 3⟩, ⟨"b", 2⟩])
    (by decide) (by decide)
  ⟨h.1, h.2.2.1, (h.2.2.2 0 (by decide)).2.2.1⟩

theorem goInt_eq_floor (q : Rat) (h : 0 ≤ q) : goInt q = ⌊q⌋ := by
  unfold goInt
  rw [Int.tdiv_eq_ediv (Rat.num_nonneg.mpr h) (Int.natCast_nonneg q.den)]
  rw [Rat.floor_def]

theorem lookup_map_self (f : Int → Rat) :
    ∀ (ps : List Int) (p : Int), p ∈ ps →
      List.lookup p (ps.map fun q => (q, f q)) = some (f p)
  | [], p, h => absurd h (List.not_mem_nil p)
  | q :: ps, p, h => by
    rw [List.map_cons, List.lookup_cons]
    by_cases hpq : p = q
    · subst hpq
      simp
    · have hbeq : (p == q) = false := beq_eq_false_iff_ne.mpr hpq
      rw [hbeq]
      have hmem : p ∈ ps := by
        rcases List.mem_cons.mp h with h1 | h1
        · exact absurd h1 hpq
        · exact h1
      exact lookup_map_self f ps p hmem

theorem interpolate_eq_percentileSpec (times : List Rat) (p : Int)
    (hne : times ≠ []) (h0 : 0 ≤ p) :
    interpolate (List.insertionSort (fun a b : Rat => a ≤ b) times)
        ((p : Rat) / 100 *
          (((List.insertionSort (fun a b : Rat => a ≤ b) times).length : Rat)
            - 1))
      = percentileSpec times p := by
  have hlen : (List.insertionSort (fun a b : Rat => a ≤ b) times).length
      = times.length := List.length_insertionSort _ times
  have hcount : 1 ≤ times.length := List.length_pos.mpr hne
  have hposn : (0 : Rat) ≤ (p : Rat) / 100 * ((times.length : Rat) - 1) := by
    apply mul_nonneg
    · have hp : (0 : Rat) ≤ (p : Rat) := by exact_mod_cast h0
      positivity
    · have hc : (1 : Rat) ≤ (times.length : Rat) := by exact_mod_cast hcount
      linarith
  simp only [interpolate, percentileSpec, hlen]
  rw [goInt_eq_floor _ hposn]

/-- C3: Percentile computation — `Calculate` returns the empty mapping on
an empty input sequence; otherwise, for each requested rank `p` in
`[0, 100]` it returns the value described by the spec (`percentileSpec`):
sort ascending, take `position = (p / 100) * (count - 1)`,
`i = floor(position)`, the last (maximum) sorted element when
`i ≥ count - 1`, and otherwise the linear blend of `sorted[i]` and
`sorted[i + 1]` weighted by the fractional part of `position`.  In
particular, for a single-value input every requested rank maps to that
one value. -/
theorem calculate_spec (times : List Rat) (ps : List Int) :
    (times = [] → Calculate times ps = []) ∧
    (times ≠ [] → ∀ p ∈ ps, 0 ≤ p → p ≤ 100 →
      List.lookup p (Calculate times ps) = some (percentileSpec times p)) ∧
    (∀ v : Rat, ∀ p ∈ ps, 0 ≤ p → p ≤ 100 →
      List.lookup p (Calculate [v] ps) = some v) := by
  have hmain : ∀ ts : List Rat, ts ≠ [] → ∀ p ∈ ps, 0 ≤ p → p ≤ 100 →
      List.lookup p (Calculate ts ps) = some (percentileSpec ts p) := by
    intro ts hne p hp h0 _
    unfold Calculate
    rw [if_neg (fun hc => hne (List.eq_nil_of_length_eq_zero hc))]
    rw [lookup_map_self
      (fun q => interpolate (List.insertionSort (fun a b : Rat => a ≤ b) ts)
        ((q : Rat) / 100 *
          (((List.insertionSort (fun a b : Rat => a ≤ b) ts).length : Rat)
            - 1))) ps p hp]
    rw [interpolate_eq_percentileSpec ts p hne h0]
  refine ⟨?_, hmain times, ?_⟩
  · intro hempty
    subst hempty
    rfl
  · intro v p hp h0 h100
    rw [hmain [v] (by simp) p hp h0 h100]
    have hsingle : percentileSpec [v] p = v := by
      unfold percentileSpec
      norm_num
    rw [hsingle]

/-- Witness for C3 at input `[1, 2]` with requested rank `50`, and the
single-value input `[42]` at rank `50`. -/
theorem calculate_spec_witness :
    List.lookup 50 (Calculate [1, 2] [50])
      = some (percentileSpec [1, 2] 50) ∧
    List.lookup 50 (Calculate [42] [50]) = some 42 :=
  ⟨(calculate_spec [1, 2] [50]).2.1 (by decide) 50 (by decide)
      (by decide) (by decide),
   (calculate_spec [42] [50]).2.2 42 50 (by decide) (by decide) (by decide)⟩
